import Mathlib

/-!
Shallow embedding of the keyword-matching and result-aggregation engine of the
Telegram keyword-scraper repository (src/app.py, with the variant handlers in
src/app_hybrid.py and src/live_scrap.py), together with proofs of the
specification claims.  Text is modelled as `List Char`; machine strings of the
Python source are translated function by function.
-/

/-- Whitespace predicate of Python `str.split()` / `str.strip()` (the Unicode
whitespace set), used by the whitespace-collapse step `' '.join(text.split())`
of `normalize_text` (src/app.py line 31). -/
def isPySpace (c : Char) : Bool :=
  let n := c.val.toNat
  n == 0x20 || (0x9 ≤ n && n ≤ 0xD) || (0x1C ≤ n && n ≤ 0x1F) ||
  n == 0x85 || n == 0xA0 || n == 0x1680 ||
  (0x2000 ≤ n && n ≤ 0x200A) || n == 0x2028 || n == 0x2029 ||
  n == 0x202F || n == 0x205F || n == 0x3000

/-- Characters removed by the regular-expression substitution of src/app.py
line 24: the bidirectional control characters U+200E, U+200F and
U+202A through U+202E. -/
def isBidi (c : Char) : Bool :=
  let n := c.val.toNat
  n == 0x200E || n == 0x200F || (0x202A ≤ n && n ≤ 0x202E)

/-- Finite representative model of the Unicode canonical-decomposition table
used by `unicodedata.normalize('NFD', ·)` (src/app.py line 27): a selection of
precomposed Latin letters, plus a Hebrew presentation form (U+FB2A) whose
decomposition is composition-excluded in Unicode, so it has no entry in
`cTable`.  All decompositions are fully (recursively) expanded, as in the
real table closure. -/
def dTable : List (Char × List Char) :=
  [ (Char.ofNat 0xE1, [Char.ofNat 0x61, Char.ofNat 0x301]),
    (Char.ofNat 0xE9, [Char.ofNat 0x65, Char.ofNat 0x301]),
    (Char.ofNat 0xED, [Char.ofNat 0x69, Char.ofNat 0x301]),
    (Char.ofNat 0xF3, [Char.ofNat 0x6F, Char.ofNat 0x301]),
    (Char.ofNat 0xFA, [Char.ofNat 0x75, Char.ofNat 0x301]),
    (Char.ofNat 0xC1, [Char.ofNat 0x41, Char.ofNat 0x301]),
    (Char.ofNat 0xC9, [Char.ofNat 0x45, Char.ofNat 0x301]),
    (Char.ofNat 0xF1, [Char.ofNat 0x6E, Char.ofNat 0x303]),
    (Char.ofNat 0xD1, [Char.ofNat 0x4E, Char.ofNat 0x303]),
    (Char.ofNat 0xFB2A, [Char.ofNat 0x5E9, Char.ofNat 0x5C1]) ]

/-- Finite representative model of the Unicode canonical-composition table used
by `unicodedata.normalize('NFC', ·)` (src/app.py line 28): the non-excluded
inverses of `dTable`. -/
def cTable : List ((Char × Char) × Char) :=
  [ ((Char.ofNat 0x61, Char.ofNat 0x301), Char.ofNat 0xE1),
    ((Char.ofNat 0x65, Char.ofNat 0x301), Char.ofNat 0xE9),
    ((Char.ofNat 0x69, Char.ofNat 0x301), Char.ofNat 0xED),
    ((Char.ofNat 0x6F, Char.ofNat 0x301), Char.ofNat 0xF3),
    ((Char.ofNat 0x75, Char.ofNat 0x301), Char.ofNat 0xFA),
    ((Char.ofNat 0x41, Char.ofNat 0x301), Char.ofNat 0xC1),
    ((Char.ofNat 0x45, Char.ofNat 0x301), Char.ofNat 0xC9),
    ((Char.ofNat 0x6E, Char.ofNat 0x303), Char.ofNat 0xF1),
    ((Char.ofNat 0x4E, Char.ofNat 0x303), Char.ofNat 0xD1) ]

/-- Canonical decomposition of one character (identity off the table). -/
def decompChar (c : Char) : List Char :=
  match dTable.find? (fun q => q.1 == c) with
  | some q => q.2
  | none => [c]

/-- Canonical composition of an adjacent pair (none off the table). -/
def composePair (a b : Char) : Option Char :=
  match cTable.find? (fun q => q.1.1 == a && q.1.2 == b) with
  | some q => some q.2
  | none => none

/-- Canonical decomposition of a character list (the `NFD` pass). -/
def decompList : List Char → List Char
  | [] => []
  | c :: cs => decompChar c ++ decompList cs

/-- Greedy left-to-right canonical recomposition, threading the pending
character `a` (the composition pass of `NFC`). -/
def composeAux : Char → List Char → List Char
  | a, [] => [a]
  | a, b :: rest =>
    match composePair a b with
    | some c => composeAux c rest
    | none => a :: composeAux b rest

/-- Canonical recomposition of a character list. -/
def composeList : List Char → List Char
  | [] => []
  | c :: cs => composeAux c cs

/-- Model of `unicodedata.normalize('NFC', unicodedata.normalize('NFD', ·))`
(src/app.py lines 27-28): decompose canonically, then recompose. -/
def nfc (l : List Char) : List Char :=
  composeList (decompList l)

/-- Model of the bidirectional-control-character removal of src/app.py
line 24. -/
def stripBidi (l : List Char) : List Char :=
  l.filter (fun c => !isBidi c)

/-- Splits off the maximal non-whitespace run at the head of a list. -/
def spanW : List Char → List Char × List Char
  | [] => ([], [])
  | c :: cs =>
    if isPySpace c then ([], c :: cs)
    else ((c :: (spanW cs).1), (spanW cs).2)

/-- Model of Python `text.split()`: the maximal whitespace-free runs of the
text, in order. -/
def words : List Char → List (List Char)
  | [] => []
  | [c] => if isPySpace c then [] else [[c]]
  | a :: b :: cs =>
    if isPySpace a then words (b :: cs)
    else if isPySpace b then [a] :: words cs
    else
      match words (b :: cs) with
      | [] => [[a]]
      | w :: ws => (a :: w) :: ws

/-- Model of `' '.join(·)` on a list of words. -/
def joinSp : List (List Char) → List Char
  | [] => []
  | [w] => w
  | w :: v :: ws => w ++ ' ' :: joinSp (v :: ws)

/-- Model of `' '.join(text.split())` (src/app.py line 31): collapse
whitespace runs to single spaces and trim the ends. -/
def collapseWs (l : List Char) : List Char :=
  joinSp (words l)

/-- Model of `normalize_text` (src/app.py lines 18-33): empty guard, strip the
bidi control block, canonical decompose-then-compose, collapse whitespace. -/
def normalize_text (t : List Char) : List Char :=
  if t = [] then []
  else collapseWs (nfc (stripBidi t))

/-- Model of Python `str.lower()` on one character (ASCII case folding). -/
def lowerL (l : List Char) : List Char :=
  l.map Char.toLower

/-- Bool test that `n` is a prefix of `h`, modelling `str.startswith`. -/
def startsSeq : List Char → List Char → Bool
  | [], _ => true
  | _ :: _, [] => false
  | a :: xs, b :: ys => a == b && startsSeq xs ys

/-- Bool test that `n` is a contiguous substring of `h`, modelling the Python
operator `n in h` on strings. -/
def hasSub : List Char → List Char → Bool
  | n, [] => startsSeq n []
  | n, c :: t => startsSeq n (c :: t) || hasSub n t

/-- The searched text of src/app.py line 145: the normalized message text,
lower-cased unless the search is case sensitive. -/
def searchTextOf (cs : Bool) (t : List Char) : List Char :=
  if cs then normalize_text t else lowerL (normalize_text t)

/-- The include terms as compared, src/app.py lines 147-148: normalized, then
lower-cased unless the search is case sensitive. -/
def kwsToCheck (cs : Bool) (kws : List (List Char)) : List (List Char) :=
  if cs then kws.map normalize_text else (kws.map normalize_text).map lowerL

/-- The exclude terms as compared, src/app.py lines 150-151. -/
def exsToCheck (cs : Bool) (exs : List (List Char)) : List (List Char) :=
  let ne := if exs = [] then [] else exs.map normalize_text
  if cs then ne else ne.map lowerL

/-- The match decision of src/app.py lines 153-156: some include term occurs
in the searched text, and no exclude term does (`exclude_match` is `False`
outright when the exclude list is empty). -/
def matchesB (cs : Bool) (kws exs : List (List Char)) (t : List Char) : Bool :=
  let tts := searchTextOf cs t
  let inc := (kwsToCheck cs kws).any (fun w => hasSub w tts)
  let etc := exsToCheck cs exs
  let exc := if etc = [] then false else etc.any (fun w => hasSub w tts)
  inc && !exc

/-- Matched-term selection of src/app.py line 163: the first pair of
(original keyword, compared keyword) whose compared form occurs in the
searched text, falling back to the first keyword. -/
def nextMatch (pairs : List (List Char × List Char)) (tts : List Char)
    (dflt : List Char) : List Char :=
  match pairs.find? (fun p => hasSub p.2 tts) with
  | some p => p.1
  | none => dflt

/-- Decimal rendering of an integer, modelling Python `str(·)` on `int`. -/
def intToStr (i : Int) : List Char :=
  (toString i).data

/-- Stand-in for `msg.date.strftime("%Y-%m-%d %H:%M:%S")` (src/app.py
line 166): an injective rendering of the abstract timestamp.  No claim
inspects the shape of the formatted date. -/
def formatDate (d : Int) : List Char :=
  intToStr d

/-- Sender record: numeric identifier and optional public username
(`None` and the empty string are both falsy in the source). -/
structure Sender where
  id : Int
  username : Option (List Char)
deriving DecidableEq

/-- Message record consumed by the engine: text (empty models falsy
`msg.text`), optional sender, timestamp, message identifier. -/
structure Msg where
  text : List Char
  sender : Option Sender
  date : Int
  id : Int
deriving DecidableEq

/-- Engine configuration: the advanced options plus the resolved group
metadata of src/app.py. -/
structure Config where
  caseSensitive : Bool
  keywords : List (List Char)
  excludeKeywords : List (List Char)
  groupId : Int
  groupTitle : List Char
  groupLink : List Char
deriving DecidableEq

/-- The seven-element `message_data` row of src/app.py line 172 (`total` is
the placeholder slot at index 6). -/
structure Row where
  username : List Char
  matchedKeyword : List Char
  groupName : List Char
  msgLink : List Char
  msgDate : List Char
  preview : List Char
  total : Nat
deriving DecidableEq

/-- A final output row of the `allow_duplicates=true` branch, after the
placeholder column is dropped (src/app.py line 208). -/
structure Row6 where
  username : List Char
  matchedKeyword : List Char
  groupName : List Char
  msgLink : List Char
  msgDate : List Char
  preview : List Char
deriving DecidableEq

/-- Drops the count column, modelling `row[:-1]` (src/app.py line 208). -/
def dropTotal (r : Row) : Row6 :=
  { username := r.username, matchedKeyword := r.matchedKeyword,
    groupName := r.groupName, msgLink := r.msgLink,
    msgDate := r.msgDate, preview := r.preview }

/-- The author handle of src/app.py line 158: the public username when truthy,
otherwise the synthetic `ID_<numeric id>` form. -/
def senderName (s : Sender) : List Char :=
  match s.username with
  | some u => if u = [] then ('I' :: 'D' :: '_' :: intToStr s.id) else u
  | none => ('I' :: 'D' :: '_' :: intToStr s.id)

/-- Message-link construction of src/app.py line 165. -/
def msgLink (gid : Int) (glink : List Char) (mid : Int) : List Char :=
  if startsSeq ('-' :: '1' :: '0' :: '0' :: []) (intToStr gid) then
    "https://t.me/c/".data ++ (intToStr gid).drop 4 ++ '/' :: intToStr mid
  else
    glink ++ '/' :: intToStr mid

/-- Newline/carriage-return replacement and 16-bit codepoint filter of
src/app.py lines 168-169. -/
def cleanText (t : List Char) : List Char :=
  (t.map (fun c => if c == '\n' || c == '\r' then ' ' else c)).filter
    (fun c => c.val.toNat < 65536)

/-- Preview construction of src/app.py line 170: the cleaned text, truncated
to 100 characters with an appended ellipsis when longer. -/
def previewText (t : List Char) : List Char :=
  let ct := cleanText t
  if ct.length > 100 then ct.take 100 ++ '.' :: '.' :: '.' :: [] else ct

/-- The `message_data` row built for a matching record
(src/app.py lines 158-172). -/
def mkRow (cfg : Config) (msg : Msg) (s : Sender) : Row :=
  { username := '@' :: senderName s,
    matchedKeyword :=
      nextMatch (cfg.keywords.zip (kwsToCheck cfg.caseSensitive cfg.keywords))
        (searchTextOf cfg.caseSensitive msg.text) (cfg.keywords.headD []),
    groupName := cfg.groupTitle,
    msgLink := msgLink cfg.groupId cfg.groupLink msg.id,
    msgDate := formatDate msg.date,
    preview := previewText msg.text,
    total := 0 }

/-- Insertion-ordered dictionary update, modelling Python `dict` assignment:
an existing key is updated in place, a new key is appended. -/
def upsert (k : Int) (f : Option α → α) : List (Int × α) → List (Int × α)
  | [] => [(k, f none)]
  | (k', v) :: rest =>
    if k' == k then (k', f (some v)) :: rest else (k', v) :: upsert k f rest

/-- Dictionary lookup on the insertion-ordered association list. -/
def lookupA (k : Int) (l : List (Int × α)) : Option α :=
  (l.find? (fun p => p.1 == k)).map (fun p => p.2)

/-- Update of `user_latest_message` (src/app.py lines 178-179): replace the
stored entry only when the key is new or the new date is strictly later. -/
def upsertLatest (uid : Int) (row : Row) (d : Int) :
    List (Int × (Row × Int)) → List (Int × (Row × Int))
  | [] => [(uid, (row, d))]
  | (k, v) :: rest =>
    if k == uid then
      (if d > v.2 then (k, (row, d)) :: rest else (k, v) :: rest)
    else (k, v) :: upsertLatest uid row d rest

/-- The aggregation state of src/app.py lines 122-124: per-author match
count, per-author matched rows, per-author latest row with its timestamp.
All three dictionaries are insertion-ordered. -/
structure AggState where
  user_message_count : List (Int × Nat)
  user_messages : List (Int × List Row)
  user_latest_message : List (Int × (Row × Int))
deriving DecidableEq

/-- Empty aggregation state at the start of a run. -/
def initState : AggState :=
  { user_message_count := [], user_messages := [], user_latest_message := [] }

/-- Processing of one streamed message (src/app.py lines 143-179): records
with falsy text or sender are skipped; a matching record updates the three
dictionaries. -/
def stepMsg (cfg : Config) (st : AggState) (msg : Msg) : AggState :=
  match msg.sender with
  | none => st
  | some s =>
    if msg.text = [] then st
    else if matchesB cfg.caseSensitive cfg.keywords cfg.excludeKeywords msg.text then
      let row := mkRow cfg msg s
      { user_message_count := upsert s.id (fun o => o.getD 0 + 1) st.user_message_count,
        user_messages := upsert s.id (fun o => o.getD [] ++ [row]) st.user_messages,
        user_latest_message := upsertLatest s.id row msg.date st.user_latest_message }
    else st

/-- The whole scan loop: fold the stream into the aggregation state. -/
def runScrape (cfg : Config) (msgs : List Msg) : AggState :=
  msgs.foldl (stepMsg cfg) initState

/-- Bool test that a record takes the matching branch of src/app.py
line 156 (truthy text, present sender, keyword policy satisfied). -/
def accepts (cfg : Config) (msg : Msg) : Bool :=
  msg.sender.isSome && !(msg.text = [] : Bool) &&
    matchesB cfg.caseSensitive cfg.keywords cfg.excludeKeywords msg.text

/-- Bool test that a record is accepted and authored by `uid`. -/
def acceptsFor (cfg : Config) (uid : Int) (msg : Msg) : Bool :=
  accepts cfg msg &&
    (match msg.sender with
     | some s => s.id == uid
     | none => false)

/-- The author's final count as read by the aggregation epilogue
(`user_message_count.get(user_id, 0)`, src/app.py lines 203 and 212). -/
def countOf (st : AggState) (uid : Int) : Nat :=
  (lookupA uid st.user_message_count).getD 0

/-- Concatenation of the per-author row groups. -/
def concatL : List (List α) → List α
  | [] => []
  | l :: ls => l ++ concatL ls

/-- The two-pass patch of src/app.py lines 201-206: every stored row of every
author, with the placeholder count replaced by the author's final count. -/
def patchRows (st : AggState) : List Row :=
  concatL (st.user_messages.map
    (fun p => p.2.map (fun r => { r with total := countOf st p.1 })))

/-- Final data of the `allow_duplicates=true` branch (src/app.py
lines 200-208): the patched rows with the count column dropped. -/
def finalDup (st : AggState) : List Row6 :=
  (patchRows st).map dropTotal

/-- Final data of the `allow_duplicates=false` branch (src/app.py
lines 209-214): per author, the stored latest row annotated with the
author's final count. -/
def finalNoDup (st : AggState) : List Row :=
  st.user_latest_message.map (fun p => { p.2.1 with total := countOf st p.1 })

/-- Comma splitting of Python `str.split(",")`. -/
def splitComma : List Char → List (List Char)
  | [] => [[]]
  | c :: cs =>
    match splitComma cs with
    | [] => [[]]
    | w :: ws => if c == ',' then [] :: w :: ws else (c :: w) :: ws

/-- Python `str.strip()`: drop leading and trailing whitespace. -/
def pyStrip (l : List Char) : List Char :=
  ((l.dropWhile isPySpace).reverse.dropWhile isPySpace).reverse

/-- Keyword parsing of src/app.py lines 89-90: split on commas, strip each
item, drop items that strip to nothing. -/
def parseTerms (s : List Char) : List (List Char) :=
  ((splitComma s).map pyStrip).filter (fun k => !(k = [] : Bool))

/-- Exclude-keyword parsing of src/app.py line 90, with the guard that an
empty input yields the empty list. -/
def parseExcludes (s : List Char) : List (List Char) :=
  if s = [] then [] else parseTerms s

/-- Keyword parsing of src/app_hybrid.py line 144 and src/live_scrap.py
line 127: split on commas and strip each item, with no blank filtering. -/
def parseTermsHybrid (s : List Char) : List (List Char) :=
  (splitComma s).map pyStrip


/-- The compared form of a single term, as the specification describes it:
normalized, and case-folded identically to the searched text when the search
is case-insensitive. -/
def checkForm (cs : Bool) (k : List Char) : List Char :=
  if cs then normalize_text k else lowerL (normalize_text k)

/-- Placeholder row (used only as a default for total functions). -/
def row0 : Row :=
  { username := [], matchedKeyword := [], groupName := [], msgLink := [],
    msgDate := [], preview := [], total := 0 }

/-- The row a message would produce, resolved through its sender. -/
def mkRowOf (cfg : Config) (m : Msg) : Row :=
  match m.sender with
  | some s => mkRow cfg m s
  | none => row0

/-- Author identifier of a message (0 when the sender is absent; only used
on accepted records, which have a sender). -/
def uidOf (m : Msg) : Int :=
  match m.sender with
  | some s => s.id
  | none => 0

/-- Concrete configuration for the aggregation examples: case-insensitive,
one include keyword, no excludes. -/
def cfg0 : Config :=
  { caseSensitive := false, keywords := ["hello".data],
    excludeKeywords := [], groupId := 987654,
    groupTitle := "G".data, groupLink := "https://t.me/mygroup".data }

/-- Concrete stream for the aggregation examples: three matching messages
from author 1 (dates 10, 30, 20) and one from author 2. -/
def msgs0 : List Msg :=
  [ { text := "hello one".data, sender := some { id := 1, username := some "u1".data },
      date := 10, id := 101 },
    { text := "hello two".data, sender := some { id := 1, username := some "u1".data },
      date := 30, id := 102 },
    { text := "hello three".data, sender := some { id := 1, username := some "u1".data },
      date := 20, id := 103 },
    { text := "hello".data, sender := some { id := 2, username := some "u2".data },
      date := 5, id := 201 } ]

/-! Facts about the decomposition and composition tables -/

theorem dTable_closed :
    ∀ q ∈ dTable, ∀ d ∈ q.2, dTable.find? (fun r => r.1 == d) = none := by decide

theorem cTable_coherent :
    ∀ q ∈ cTable, decompChar q.2 = [q.1.1, q.1.2] ∧
      decompChar q.1.1 = [q.1.1] ∧ decompChar q.1.2 = [q.1.2] := by decide

theorem dTable_safe :
    ∀ q ∈ dTable, isPySpace q.1 = false ∧ q.2 ≠ [] ∧
      ∀ d ∈ q.2, isPySpace d = false ∧ isBidi d = false := by decide

theorem cTable_safe :
    ∀ q ∈ cTable, isPySpace q.1.1 = false ∧ isPySpace q.1.2 = false ∧
      isPySpace q.2 = false ∧ isBidi q.2 = false := by decide

theorem decompChar_of_mem (c : Char) :
    ∀ d ∈ decompChar c, decompChar d = [d] := by
  intro d hd
  unfold decompChar at hd
  cases h : dTable.find? (fun q => q.1 == c) with
  | none =>
    rw [h] at hd
    simp only [List.mem_singleton] at hd
    subst hd
    unfold decompChar
    rw [h]
  | some q =>
    rw [h] at hd
    have hq : q ∈ dTable := List.mem_of_find?_eq_some h
    have := dTable_closed q hq d hd
    unfold decompChar
    rw [this]

theorem composePair_decomp {a b c : Char} (h : composePair a b = some c) :
    decompChar c = [a, b] ∧ decompChar a = [a] ∧ decompChar b = [b] := by
  unfold composePair at h
  cases hf : cTable.find? (fun q => q.1.1 == a && q.1.2 == b) with
  | none => rw [hf] at h; exact absurd h (by simp)
  | some q =>
    rw [hf] at h
    have hq : q ∈ cTable := List.mem_of_find?_eq_some hf
    have hp := List.find?_some hf
    simp only [Bool.and_eq_true, beq_iff_eq] at hp
    obtain ⟨ha, hb⟩ := hp
    have hc : c = q.2 := by
      simpa using h.symm
    subst ha; subst hb; subst hc
    exact cTable_coherent q hq

theorem composePair_mem {a b c : Char} (h : composePair a b = some c) :
    ∃ q ∈ cTable, c = q.2 := by
  unfold composePair at h
  cases hf : cTable.find? (fun q => q.1.1 == a && q.1.2 == b) with
  | none => rw [hf] at h; exact absurd h (by simp)
  | some q =>
    rw [hf] at h
    exact ⟨q, List.mem_of_find?_eq_some hf, by simpa using h.symm⟩

theorem decompChar_not_key {c : Char}
    (h : ∀ q ∈ dTable, (q.1 == c) = false) : decompChar c = [c] := by
  unfold decompChar
  rw [List.find?_eq_none.mpr (fun q hq => by simp [h q hq])]

theorem decompChar_ws {w : Char} (hw : isPySpace w = true) : decompChar w = [w] := by
  apply decompChar_not_key
  intro q hq
  have h1 := (dTable_safe q hq).1
  by_contra hne
  have heq : q.1 = w := by simpa using hne
  rw [heq, hw] at h1
  exact absurd h1 (by simp)

theorem composePair_ws_right {a w : Char} (hw : isPySpace w = true) :
    composePair a w = none := by
  unfold composePair
  rw [List.find?_eq_none.mpr]
  intro q hq
  have := (cTable_safe q hq).2.1
  simp only [Bool.and_eq_true, beq_iff_eq, not_and]
  intro _ h2
  rw [h2] at this
  rw [this] at hw
  exact absurd hw (by simp)

theorem composePair_ws_left {w b : Char} (hw : isPySpace w = true) :
    composePair w b = none := by
  unfold composePair
  rw [List.find?_eq_none.mpr]
  intro q hq
  have := (cTable_safe q hq).1
  simp only [Bool.and_eq_true, beq_iff_eq, not_and]
  intro h1
  rw [h1] at this
  rw [this] at hw
  simp_all

/-! Decomposition and recomposition lemmas -/

theorem decompList_append (u v : List Char) :
    decompList (u ++ v) = decompList u ++ decompList v := by
  induction u with
  | nil => rfl
  | cons c cs ih => simp [decompList, ih, List.append_assoc]

theorem mem_decompList {d : Char} {l : List Char} (h : d ∈ decompList l) :
    ∃ c ∈ l, d ∈ decompChar c := by
  induction l with
  | nil => simp [decompList] at h
  | cons c cs ih =>
    simp only [decompList, List.mem_append] at h
    rcases h with h | h
    · exact ⟨c, List.mem_cons_self c cs, h⟩
    · obtain ⟨c', hc', hd⟩ := ih h
      exact ⟨c', List.mem_cons_of_mem c hc', hd⟩

theorem decompList_of_fixed {l : List Char} (h : ∀ d ∈ l, decompChar d = [d]) :
    decompList l = l := by
  induction l with
  | nil => rfl
  | cons c cs ih =>
    simp only [decompList]
    rw [h c (List.mem_cons_self c cs), ih (fun d hd => h d (List.mem_cons_of_mem c hd))]
    rfl

theorem decompList_idem (l : List Char) :
    decompList (decompList l) = decompList l := by
  apply decompList_of_fixed
  intro d hd
  obtain ⟨c, _, hdc⟩ := mem_decompList hd
  exact decompChar_of_mem c d hdc

theorem decompList_composeAux (l : List Char) :
    ∀ a, decompList (composeAux a l) = decompChar a ++ decompList l := by
  induction l with
  | nil => intro a; simp [composeAux, decompList]
  | cons b rest ih =>
    intro a
    cases h : composePair a b with
    | some c =>
      obtain ⟨hc, ha, hb⟩ := composePair_decomp h
      simp only [composeAux, h, ih c, hc, decompList, ha, hb]
      rfl
    | none =>
      simp only [composeAux, h, decompList, ih b]

theorem decompList_composeList (zs : List Char) :
    decompList (composeList zs) = decompList zs := by
  cases zs with
  | nil => rfl
  | cons c cs => simpa [composeList, decompList] using decompList_composeAux cs c

theorem nfc_idem (l : List Char) : nfc (nfc l) = nfc l := by
  unfold nfc
  rw [decompList_composeList, decompList_idem]

/-! Recomposition splits at whitespace characters -/

theorem composeAux_ws_head {w : Char} (hw : isPySpace w = true) (q : List Char) :
    composeAux w q = w :: composeList q := by
  cases q with
  | nil => rfl
  | cons y q' => simp [composeAux, composePair_ws_left hw, composeList]

theorem composeAux_split {w : Char} (hw : isPySpace w = true) (p : List Char) :
    ∀ a q, composeAux a (p ++ w :: q) = composeAux a p ++ w :: composeList q := by
  induction p with
  | nil =>
    intro a q
    simp only [List.nil_append, composeAux, composePair_ws_right hw]
    rw [composeAux_ws_head hw]
    rfl
  | cons b p' ih =>
    intro a q
    cases h : composePair a b with
    | some c => simp only [List.cons_append, composeAux, h, List.append_eq, ih c]
    | none => simp only [List.cons_append, composeAux, h, List.append_eq, ih b]

theorem composeList_split {w : Char} (hw : isPySpace w = true) (p q : List Char) :
    composeList (p ++ w :: q) = composeList p ++ w :: composeList q := by
  cases p with
  | nil => simpa [composeList] using composeAux_ws_head hw q
  | cons a p' => simpa [composeList] using composeAux_split hw p' a q

theorem nfc_split {w : Char} (hw : isPySpace w = true) (u v : List Char) :
    nfc (u ++ w :: v) = nfc u ++ w :: nfc v := by
  unfold nfc
  have : decompList (u ++ w :: v) = decompList u ++ w :: decompList v := by
    rw [decompList_append]
    simp [decompList, decompChar_ws hw]
  rw [this, composeList_split hw]

/-! Character membership of the recomposed text -/

theorem mem_decompChar {d c : Char} (h : d ∈ decompChar c) :
    d = c ∨ ∃ q ∈ dTable, d ∈ q.2 := by
  unfold decompChar at h
  cases hf : dTable.find? (fun q => q.1 == c) with
  | none => rw [hf] at h; simp only [List.mem_singleton] at h; exact Or.inl h
  | some q =>
    rw [hf] at h
    exact Or.inr ⟨q, List.mem_of_find?_eq_some hf, h⟩

theorem mem_composeAux {d : Char} (l : List Char) :
    ∀ a, d ∈ composeAux a l → d = a ∨ d ∈ l ∨ ∃ q ∈ cTable, d = q.2 := by
  induction l with
  | nil =>
    intro a h
    simp only [composeAux, List.mem_singleton] at h
    exact Or.inl h
  | cons b rest ih =>
    intro a h
    cases hc : composePair a b with
    | some c =>
      rw [composeAux, hc] at h
      rcases ih c h with h1 | h1 | h1
      · subst h1
        exact Or.inr (Or.inr (composePair_mem hc))
      · exact Or.inr (Or.inl (List.mem_cons_of_mem b h1))
      · exact Or.inr (Or.inr h1)
    | none =>
      rw [composeAux, hc] at h
      rcases List.mem_cons.mp h with h1 | h1
      · exact Or.inl h1
      · rcases ih b h1 with h2 | h2 | h2
        · exact Or.inr (Or.inl (by simp [h2]))
        · exact Or.inr (Or.inl (List.mem_cons_of_mem b h2))
        · exact Or.inr (Or.inr h2)

theorem mem_nfc {d : Char} {l : List Char} (h : d ∈ nfc l) :
    (∃ c ∈ l, d ∈ decompChar c) ∨ ∃ q ∈ cTable, d = q.2 := by
  unfold nfc at h
  cases hz : decompList l with
  | nil => rw [hz] at h; simp [composeList] at h
  | cons z zs =>
    rw [hz, composeList] at h
    rcases mem_composeAux zs z h with h1 | h1 | h1
    · refine Or.inl (mem_decompList ?_)
      rw [hz, h1]
      exact List.mem_cons_self z zs
    · refine Or.inl (mem_decompList ?_)
      rw [hz]
      exact List.mem_cons_of_mem z h1
    · exact Or.inr h1

theorem nfc_bidi_free {l : List Char} (h : ∀ c ∈ l, isBidi c = false) :
    ∀ d ∈ nfc l, isBidi d = false := by
  intro d hd
  rcases mem_nfc hd with ⟨c, hc, hdc⟩ | ⟨q, hq, hdq⟩
  · rcases mem_decompChar hdc with h1 | ⟨q, hq, hdq⟩
    · rw [h1]; exact h c hc
    · exact ((dTable_safe q hq).2.2 d hdq).2
  · rw [hdq]; exact (cTable_safe q hq).2.2.2

theorem nfc_ws_free {l : List Char} (h : ∀ c ∈ l, isPySpace c = false) :
    ∀ d ∈ nfc l, isPySpace d = false := by
  intro d hd
  rcases mem_nfc hd with ⟨c, hc, hdc⟩ | ⟨q, hq, hdq⟩
  · rcases mem_decompChar hdc with h1 | ⟨q, hq, hdq⟩
    · rw [h1]; exact h c hc
    · exact ((dTable_safe q hq).2.2 d hdq).1
  · rw [hdq]; exact (cTable_safe q hq).2.2.1

theorem composeAux_ne_nil (l : List Char) : ∀ a, composeAux a l ≠ [] := by
  induction l with
  | nil => intro a; simp [composeAux]
  | cons b rest ih =>
    intro a
    cases h : composePair a b with
    | some c => rw [composeAux, h]; exact ih c
    | none => rw [composeAux, h]; simp

theorem decompChar_ne_nil (c : Char) : decompChar c ≠ [] := by
  unfold decompChar
  cases hf : dTable.find? (fun q => q.1 == c) with
  | none => simp
  | some q => exact (dTable_safe q (List.mem_of_find?_eq_some hf)).2.1

theorem spanW_append (l : List Char) : (spanW l).1 ++ (spanW l).2 = l := by
  induction l with
  | nil => rfl
  | cons c cs ih =>
    by_cases h : isPySpace c
    · simp [spanW, h]
    · simp only [spanW, h]
      simp only [Bool.false_eq_true, if_false, List.cons_append, ih]

theorem spanW_fst_nws (l : List Char) : ∀ c ∈ (spanW l).1, isPySpace c = false := by
  induction l with
  | nil => intro c hc; simp [spanW] at hc
  | cons a cs ih =>
    intro c hc
    by_cases h : isPySpace a
    · simp [spanW, h] at hc
    · simp only [spanW, h, Bool.false_eq_true, if_false] at hc
      rcases List.mem_cons.mp hc with h1 | h1
      · rw [h1]; exact Bool.eq_false_iff.mpr h
      · exact ih c h1

theorem spanW_snd_head {l : List Char} {w : Char} {q : List Char}
    (h : (spanW l).2 = w :: q) : isPySpace w = true := by
  induction l with
  | nil => simp [spanW] at h
  | cons a cs ih =>
    by_cases ha : isPySpace a
    · simp only [spanW, ha, if_true] at h
      injection h with h1 _
      rw [← h1]
      exact ha
    · simp only [spanW, ha, Bool.false_eq_true, if_false] at h
      exact ih h

theorem spanW_snd_length (l : List Char) : (spanW l).2.length ≤ l.length := by
  induction l with
  | nil => simp [spanW]
  | cons a cs ih =>
    by_cases h : isPySpace a
    · simp [spanW, h]
    · simp only [spanW, h, Bool.false_eq_true, if_false]
      exact Nat.le_succ_of_le ih

theorem spanW_nws {l : List Char} (h : ∀ c ∈ l, isPySpace c = false) :
    spanW l = (l, []) := by
  induction l with
  | nil => rfl
  | cons a cs ih =>
    have ha := h a (List.mem_cons_self a cs)
    have := ih (fun c hc => h c (List.mem_cons_of_mem a hc))
    simp [spanW, ha, this]

theorem spanW_app_ws {xs : List Char} (hxs : ∀ c ∈ xs, isPySpace c = false)
    {w : Char} (hw : isPySpace w = true) (ys : List Char) :
    spanW (xs ++ w :: ys) = (xs, w :: ys) := by
  induction xs with
  | nil => simp [spanW, hw]
  | cons a xs' ih =>
    have ha := hxs a (List.mem_cons_self a xs')
    have := ih (fun c hc => hxs c (List.mem_cons_of_mem a hc))
    simp [spanW, ha, this]

/-! Lemmas about `words` and `joinSp` -/

theorem words_ws_head {b : Char} (hb : isPySpace b = true) (cs : List Char) :
    words (b :: cs) = words cs := by
  cases cs with
  | nil => simp [words, hb]
  | cons c cs' => simp [words, hb]

theorem words_cons_nws :
    ∀ (cs : List Char) (c : Char), isPySpace c = false →
      words (c :: cs) = (c :: (spanW cs).1) :: words (spanW cs).2 := by
  intro cs
  induction cs with
  | nil =>
    intro c hc
    simp [words, hc, spanW]
  | cons b cs' ih =>
    intro c hc
    by_cases hb : isPySpace b
    · have h1 : words (c :: b :: cs') = [c] :: words cs' := by
        simp [words, hc, hb]
      have h2 : spanW (b :: cs') = ([], b :: cs') := by
        simp [spanW, hb]
      rw [h1, h2]
      show [c] :: words cs' = [c] :: words (b :: cs')
      rw [words_ws_head hb]
    · have hbf : isPySpace b = false := Bool.eq_false_iff.mpr hb
      have h2 := ih b hbf
      have h1 : words (c :: b :: cs') =
          (c :: b :: (spanW cs').1) :: words (spanW cs').2 := by
        simp only [words, hc, hb, Bool.false_eq_true, if_false, h2]
      rw [h1]
      simp [spanW, hbf]

theorem words_nil_eq : words [] = [] := rfl

theorem words_single {l : List Char} (h : ∀ c ∈ l, isPySpace c = false)
    (hne : l ≠ []) : words l = [l] := by
  cases l with
  | nil => exact absurd rfl hne
  | cons c cs =>
    rw [words_cons_nws cs c (h c (List.mem_cons_self c cs))]
    rw [spanW_nws (fun d hd => h d (List.mem_cons_of_mem c hd))]
    rfl

theorem words_append_ws_aux {w : Char} (hw : isPySpace w = true) :
    ∀ (n : Nat) (u : List Char), u.length ≤ n →
      ∀ v, words (u ++ w :: v) = words u ++ words v := by
  intro n
  induction n with
  | zero =>
    intro u hu v
    have : u = [] := List.eq_nil_of_length_eq_zero (Nat.le_zero.mp hu)
    rw [this]
    simpa [words_nil_eq] using words_ws_head hw v
  | succ n ih =>
    intro u hu v
    cases u with
    | nil => simpa [words_nil_eq] using words_ws_head hw v
    | cons c u' =>
      by_cases hc : isPySpace c
      · rw [List.cons_append, words_ws_head hc, words_ws_head hc]
        exact ih u' (Nat.le_of_succ_le_succ hu) v
      · have hcf : isPySpace c = false := Bool.eq_false_iff.mpr hc
        have hu' : u'.length ≤ n := Nat.le_of_succ_le_succ hu
        rw [List.cons_append, words_cons_nws (u' ++ w :: v) c hcf,
          words_cons_nws u' c hcf]
        cases hr : (spanW u').2 with
        | nil =>
          have ht : (spanW u').1 = u' := by
            have := spanW_append u'
            rwa [hr, List.append_nil] at this
          have hnws : ∀ d ∈ u', isPySpace d = false := by
            intro d hd
            exact spanW_fst_nws u' d (by rw [ht]; exact hd)
          rw [spanW_app_ws hnws hw v, ht]
          show (c :: u') :: words (w :: v) = ((c :: u') :: words []) ++ words v
          rw [words_ws_head hw, words_nil_eq]
          rfl
        | cons d r' =>
          have hd : isPySpace d = true := spanW_snd_head hr
          have hsplit : u' = (spanW u').1 ++ d :: r' := by
            rw [← hr]; exact (spanW_append u').symm
          have htn := spanW_fst_nws u'
          have happ : u' ++ w :: v = (spanW u').1 ++ d :: (r' ++ w :: v) := by
            conv_lhs => rw [hsplit]
            simp
          rw [happ, spanW_app_ws htn hd (r' ++ w :: v)]
          have hr'len : r'.length ≤ n := by
            have h1 : (spanW u').2.length ≤ u'.length := spanW_snd_length u'
            rw [hr] at h1
            exact Nat.le_trans (Nat.le_of_succ_le h1) hu'
          show (c :: (spanW u').1) :: words (d :: (r' ++ w :: v)) =
            ((c :: (spanW u').1) :: words (d :: r')) ++ words v
          rw [words_ws_head hd, words_ws_head hd, ih r' hr'len v]
          rfl

theorem words_append_ws {w : Char} (hw : isPySpace w = true) (u v : List Char) :
    words (u ++ w :: v) = words u ++ words v :=
  words_append_ws_aux hw u.length u (Nat.le_refl _) v

theorem words_mem_spec :
    ∀ (n : Nat) (l : List Char), l.length ≤ n → ∀ w ∈ words l,
      w ≠ [] ∧ (∀ c ∈ w, isPySpace c = false) ∧ (∀ c ∈ w, c ∈ l) := by
  intro n
  induction n with
  | zero =>
    intro l hl w hw
    have : l = [] := List.eq_nil_of_length_eq_zero (Nat.le_zero.mp hl)
    rw [this, words_nil_eq] at hw
    simp at hw
  | succ n ih =>
    intro l hl w hw
    cases l with
    | nil => rw [words_nil_eq] at hw; simp at hw
    | cons c cs =>
      by_cases hc : isPySpace c
      · rw [words_ws_head hc] at hw
        obtain ⟨h1, h2, h3⟩ := ih cs (Nat.le_of_succ_le_succ hl) w hw
        exact ⟨h1, h2, fun d hd => List.mem_cons_of_mem c (h3 d hd)⟩
      · have hcf : isPySpace c = false := Bool.eq_false_iff.mpr hc
        rw [words_cons_nws cs c hcf] at hw
        rcases List.mem_cons.mp hw with h1 | h1
        · refine ⟨by simp [h1], ?_, ?_⟩
          · intro d hd
            rw [h1] at hd
            rcases List.mem_cons.mp hd with h2 | h2
            · rw [h2]; exact hcf
            · exact spanW_fst_nws cs d h2
          · intro d hd
            rw [h1] at hd
            rcases List.mem_cons.mp hd with h2 | h2
            · rw [h2]; exact List.mem_cons_self c cs
            · refine List.mem_cons_of_mem c ?_
              rw [← spanW_append cs]
              exact List.mem_append_left _ h2
        · have hlen : (spanW cs).2.length ≤ n := by
            have := spanW_snd_length cs
            have hcs : cs.length ≤ n := Nat.le_of_succ_le_succ hl
            exact Nat.le_trans this hcs
          obtain ⟨h2, h3, h4⟩ := ih (spanW cs).2 hlen w h1
          refine ⟨h2, h3, ?_⟩
          intro d hd
          refine List.mem_cons_of_mem c ?_
          rw [← spanW_append cs]
          exact List.mem_append_right _ (h4 d hd)

theorem words_spec {l : List Char} {w : List Char} (hw : w ∈ words l) :
    w ≠ [] ∧ (∀ c ∈ w, isPySpace c = false) ∧ (∀ c ∈ w, c ∈ l) :=
  words_mem_spec l.length l (Nat.le_refl _) w hw

theorem words_joinSp :
    ∀ ws : List (List Char),
      (∀ w ∈ ws, w ≠ [] ∧ ∀ c ∈ w, isPySpace c = false) →
      words (joinSp ws) = ws := by
  intro ws
  induction ws with
  | nil => intro _; rfl
  | cons w vs ih =>
    intro h
    cases vs with
    | nil =>
      obtain ⟨h1, h2⟩ := h w (List.mem_cons_self w [])
      simpa [joinSp] using words_single h2 h1
    | cons v vs' =>
      have hjs : joinSp (w :: v :: vs') = w ++ ' ' :: joinSp (v :: vs') := rfl
      rw [hjs, words_append_ws (by decide) w (joinSp (v :: vs'))]
      obtain ⟨h1, h2⟩ := h w (List.mem_cons_self w (v :: vs'))
      rw [words_single h2 h1, ih (fun u hu => h u (List.mem_cons_of_mem w hu))]
      rfl

theorem collapseWs_idem (l : List Char) : collapseWs (collapseWs l) = collapseWs l := by
  unfold collapseWs
  rw [words_joinSp (words l) (fun w hw => ⟨(words_spec hw).1, (words_spec hw).2.1⟩)]

theorem mem_joinSp {c : Char} :
    ∀ ws : List (List Char), c ∈ joinSp ws → (∃ w ∈ ws, c ∈ w) ∨ c = ' ' := by
  intro ws
  induction ws with
  | nil => intro h; simp [joinSp] at h
  | cons w vs ih =>
    intro h
    cases vs with
    | nil =>
      simp only [joinSp] at h
      exact Or.inl ⟨w, List.mem_cons_self w [], h⟩
    | cons v vs' =>
      have hjs : joinSp (w :: v :: vs') = w ++ ' ' :: joinSp (v :: vs') := rfl
      rw [hjs] at h
      rcases List.mem_append.mp h with h1 | h1
      · exact Or.inl ⟨w, List.mem_cons_self w (v :: vs'), h1⟩
      · rcases List.mem_cons.mp h1 with h2 | h2
        · exact Or.inr h2
        · rcases ih h2 with ⟨u, hu, hcu⟩ | h3
          · exact Or.inl ⟨u, List.mem_cons_of_mem w hu, hcu⟩
          · exact Or.inr h3

theorem mem_collapseWs {c : Char} {l : List Char} (h : c ∈ collapseWs l) :
    c ∈ l ∨ c = ' ' := by
  unfold collapseWs at h
  rcases mem_joinSp (words l) h with ⟨w, hw, hcw⟩ | h1
  · exact Or.inl ((words_spec hw).2.2 c hcw)
  · exact Or.inr h1

theorem nfc_joinSp :
    ∀ ws : List (List Char), nfc (joinSp ws) = joinSp (ws.map nfc) := by
  intro ws
  induction ws with
  | nil => rfl
  | cons w vs ih =>
    cases vs with
    | nil => rfl
    | cons v vs' =>
      have hjs : joinSp (w :: v :: vs') = w ++ ' ' :: joinSp (v :: vs') := rfl
      rw [hjs, nfc_split (by decide) w (joinSp (v :: vs')), ih]
      rfl

theorem nfc_ne_nil {l : List Char} (h : l ≠ []) : nfc l ≠ [] := by
  unfold nfc
  cases l with
  | nil => exact absurd rfl h
  | cons c cs =>
    have hd : decompList (c :: cs) = decompChar c ++ decompList cs := rfl
    rw [hd]
    cases hc : decompChar c with
    | nil => exact absurd hc (decompChar_ne_nil c)
    | cons z zs => simp only [List.cons_append, composeList]; exact composeAux_ne_nil _ z

theorem words_nfc_aux :
    ∀ (n : Nat) (l : List Char), l.length ≤ n →
      words (nfc l) = (words l).map nfc := by
  intro n
  induction n with
  | zero =>
    intro l hl
    have : l = [] := List.eq_nil_of_length_eq_zero (Nat.le_zero.mp hl)
    rw [this]
    rfl
  | succ n ih =>
    intro l hl
    cases hr : (spanW l).2 with
    | nil =>
      have ht : (spanW l).1 = l := by
        have := spanW_append l
        rwa [hr, List.append_nil] at this
      have hnws : ∀ c ∈ l, isPySpace c = false := by
        intro c hc
        exact spanW_fst_nws l c (by rw [ht]; exact hc)
      cases l with
      | nil => rfl
      | cons a as =>
        have hne : (a :: as) ≠ [] := by simp
        rw [words_single hnws hne,
          words_single (nfc_ws_free hnws) (nfc_ne_nil hne)]
        rfl
    | cons w q =>
      have hw : isPySpace w = true := spanW_snd_head hr
      have hsplit : l = (spanW l).1 ++ w :: q := by
        rw [← hr]
        exact (spanW_append l).symm
      have htn := spanW_fst_nws l
      have hqlen : q.length ≤ n := by
        have h1 : (spanW l).2.length ≤ l.length := spanW_snd_length l
        rw [hr] at h1
        have h2 : q.length + 1 ≤ l.length := h1
        have h3 : l.length ≤ n + 1 := hl
        exact Nat.le_of_succ_le_succ (Nat.le_trans h2 h3)
      have step : words (nfc l) =
          words (nfc (spanW l).1) ++ (words q).map nfc := by
        conv_lhs => rw [hsplit]
        rw [nfc_split hw, words_append_ws hw, ih q hqlen]
      have step2 : (words l).map nfc =
          (words (spanW l).1).map nfc ++ (words q).map nfc := by
        conv_lhs => rw [hsplit]
        rw [words_append_ws hw, List.map_append]
      rw [step, step2]
      cases ht1 : (spanW l).1 with
      | nil => rfl
      | cons a as =>
        have hnws2 : ∀ c ∈ (a :: as), isPySpace c = false := by
          intro c hc
          exact htn c (by rw [ht1]; exact hc)
        have hne : (a :: as : List Char) ≠ [] := by simp
        rw [words_single hnws2 hne,
          words_single (nfc_ws_free hnws2) (nfc_ne_nil hne)]
        rfl

theorem words_nfc (l : List Char) : words (nfc l) = (words l).map nfc :=
  words_nfc_aux l.length l (Nat.le_refl _)

theorem nfc_collapseWs_nfc (u : List Char) :
    nfc (collapseWs (nfc u)) = collapseWs (nfc u) := by
  unfold collapseWs
  rw [words_nfc, nfc_joinSp, List.map_map]
  have : (words u).map (nfc ∘ nfc) = (words u).map nfc :=
    List.map_congr_left (fun w _ => nfc_idem w)
  rw [this]

theorem normalize_text_of_ne_nil {z : List Char} (hz : z ≠ []) :
    normalize_text z = collapseWs (nfc (stripBidi z)) := by
  unfold normalize_text
  rw [if_neg hz]

/-- Claim C5: text normalization is idempotent.  `normalize_text` mirrors
src/app.py lines 18-33: strip the bidi control block, canonically decompose
and recompose, collapse whitespace runs to single spaces and trim the ends;
for every input `x` it satisfies `normalize_text (normalize_text x) =
normalize_text x`. -/
theorem C5_normalize_idempotent (x : List Char) :
    normalize_text (normalize_text x) = normalize_text x := by
  by_cases hx : x = []
  · rw [hx]
    rfl
  · by_cases hy0 : normalize_text x = []
    · rw [hy0]
      rfl
    · have hyv : normalize_text x = collapseWs (nfc (stripBidi x)) :=
        normalize_text_of_ne_nil hx
      rw [normalize_text_of_ne_nil hy0]
      have hbidi : ∀ c ∈ normalize_text x, isBidi c = false := by
        intro c hc
        rw [hyv] at hc
        rcases mem_collapseWs hc with h | h
        · have hsb : ∀ d ∈ stripBidi x, isBidi d = false := by
            intro d hd
            have := (List.mem_filter.mp hd).2
            simpa using this
          exact nfc_bidi_free hsb c h
        · rw [h]
          decide
      have hstrip : stripBidi (normalize_text x) = normalize_text x := by
        unfold stripBidi
        apply List.filter_eq_self.mpr
        intro c hc
        simp [hbidi c hc]
      rw [hstrip, hyv, nfc_collapseWs_nfc, collapseWs_idem]

/-! Substring test and matched-term selection -/

theorem startsSeq_iff (n : List Char) :
    ∀ h : List Char, startsSeq n h = true ↔ n <+: h := by
  induction n with
  | nil => intro h; simp [startsSeq]
  | cons a xs ih =>
    intro h
    cases h with
    | nil => simp [startsSeq]
    | cons b ys => simp [startsSeq, List.cons_prefix_cons, ih ys]

theorem hasSub_iff (n : List Char) :
    ∀ h : List Char, hasSub n h = true ↔ n <:+: h := by
  intro h
  induction h with
  | nil =>
    cases n with
    | nil => simp [hasSub, startsSeq]
    | cons c t => simp [hasSub, startsSeq]
  | cons c t ih =>
    have he : hasSub n (c :: t) = (startsSeq n (c :: t) || hasSub n t) := rfl
    rw [he, List.infix_cons_iff, Bool.or_eq_true, startsSeq_iff, ih]

theorem kwsToCheck_eq (cs : Bool) (kws : List (List Char)) :
    kwsToCheck cs kws = kws.map (checkForm cs) := by
  cases cs with
  | true => simp [kwsToCheck, checkForm]
  | false => simp [kwsToCheck, checkForm, List.map_map, Function.comp_def]

theorem exsToCheck_eq (cs : Bool) (exs : List (List Char)) :
    exsToCheck cs exs = exs.map (checkForm cs) := by
  by_cases hx : exs = []
  · cases cs <;> simp [exsToCheck, hx]
  · cases cs <;> simp [exsToCheck, hx, checkForm, List.map_map, Function.comp_def]

theorem nextMatch_zip (cs : Bool) (tts : List Char) :
    ∀ (kws : List (List Char)) (dflt : List Char),
      nextMatch (kws.zip (kws.map (checkForm cs))) tts dflt =
        (kws.find? (fun k => hasSub (checkForm cs k) tts)).getD dflt := by
  intro kws
  induction kws with
  | nil => intro dflt; rfl
  | cons k kws' ih =>
    intro dflt
    have hz : (k :: kws').zip ((k :: kws').map (checkForm cs)) =
        (k, checkForm cs k) :: kws'.zip (kws'.map (checkForm cs)) := rfl
    rw [hz]
    by_cases hk : hasSub (checkForm cs k) tts = true
    · simp [nextMatch, List.find?_cons, hk]
    · have hkf : hasSub (checkForm cs k) tts = false := Bool.eq_false_iff.mpr hk
      simp only [nextMatch, List.find?_cons, hkf]
      exact ih dflt

/-- Claim C4: the matched term reported for a matching record is the first
include term, in the user-supplied order, whose normalized and case-folded
form occurs in the searched text (the original spelling is returned), with
the first include term as fallback when none is found.  `hasSub` is grounded
as the substring relation in the first conjunct. -/
theorem C4_matched_term_selection :
    (∀ n h : List Char, hasSub n h = true ↔ n <:+: h) ∧
    (∀ (cfg : Config) (msg : Msg) (s : Sender),
      (mkRow cfg msg s).matchedKeyword =
        (cfg.keywords.find? (fun k =>
          hasSub (checkForm cfg.caseSensitive k)
            (searchTextOf cfg.caseSensitive msg.text))).getD
          (cfg.keywords.headD [])) := by
  refine ⟨fun n h => hasSub_iff n h, fun cfg msg s => ?_⟩
  show nextMatch (cfg.keywords.zip (kwsToCheck cfg.caseSensitive cfg.keywords))
      (searchTextOf cfg.caseSensitive msg.text) (cfg.keywords.headD []) = _
  rw [kwsToCheck_eq, nextMatch_zip]

/-! Link and preview construction -/

/-- Claim C6: when the group identifier rendered as a string starts with the
four characters of the supergroup marker, the message link is the t.me/c
form over the identifier with its first four characters removed; otherwise
it is the group link followed by the message identifier.  The two concrete
examples of the specification are included. -/
theorem C6_message_link :
    (∀ (gid : Int) (glink : List Char) (mid : Int),
      (('-' :: '1' :: '0' :: '0' :: []) <+: intToStr gid →
        msgLink gid glink mid =
          "https://t.me/c/".data ++ (intToStr gid).drop 4 ++ '/' :: intToStr mid) ∧
      (¬ (('-' :: '1' :: '0' :: '0' :: []) <+: intToStr gid) →
        msgLink gid glink mid = glink ++ '/' :: intToStr mid)) ∧
    (∀ glink : List Char,
      msgLink (-1001234567890) glink 55 = "https://t.me/c/1234567890/55".data) ∧
    msgLink 987654 "https://t.me/mygroup".data 7 = "https://t.me/mygroup/7".data := by
  refine ⟨fun gid glink mid => ⟨fun h => ?_, fun h => ?_⟩, fun glink => ?_, by decide⟩
  · unfold msgLink
    rw [if_pos ((startsSeq_iff _ _).mpr h)]
  · unfold msgLink
    rw [if_neg (fun hb => h ((startsSeq_iff _ _).mp hb))]
  · unfold msgLink
    rw [if_pos (by decide)]
    decide

theorem C6_message_link_witness :
    msgLink (-1001234567890) "x".data 55 =
      "https://t.me/c/".data ++ (intToStr (-1001234567890)).drop 4 ++ '/' :: intToStr 55 ∧
    msgLink 987654 "https://t.me/mygroup".data 7 =
      "https://t.me/mygroup".data ++ '/' :: intToStr 7 :=
  ⟨(C6_message_link.1 (-1001234567890) "x".data 55).1 (by decide),
   (C6_message_link.1 987654 "https://t.me/mygroup".data 7).2 (by decide)⟩

set_option maxRecDepth 4000 in
/-- Claim C7: the preview is the message text with newlines and carriage
returns replaced by spaces and characters at or above codepoint 65536
removed, truncated to its first 100 characters with an appended ellipsis
exactly when the cleaned text is longer than 100 characters; a
150-character message yields a 100-character prefix plus ellipsis and an
80-character message is returned unmodified. -/
theorem C7_preview_truncation :
    (∀ t : List Char,
      ((cleanText t).length > 100 →
        previewText t = (cleanText t).take 100 ++ '.' :: '.' :: '.' :: []) ∧
      ((cleanText t).length ≤ 100 → previewText t = cleanText t)) ∧
    previewText (List.replicate 150 'a') =
      List.replicate 100 'a' ++ '.' :: '.' :: '.' :: [] ∧
    previewText (List.replicate 80 'a') = List.replicate 80 'a' := by
  refine ⟨fun t => ⟨fun h => ?_, fun h => ?_⟩, by decide, by decide⟩
  · unfold previewText
    rw [if_pos h]
  · unfold previewText
    rw [if_neg (Nat.not_lt.mpr h)]

set_option maxRecDepth 4000 in
theorem C7_preview_truncation_witness :
    previewText (List.replicate 150 'b') =
      (cleanText (List.replicate 150 'b')).take 100 ++ '.' :: '.' :: '.' :: [] ∧
    previewText (List.replicate 80 'c') = cleanText (List.replicate 80 'c') :=
  ⟨(C7_preview_truncation.1 _).1 (by decide), (C7_preview_truncation.1 _).2 (by decide)⟩

/-! Records without text or sender leave the state unchanged -/

/-- Claim C10: a record with falsy text or an absent sender never touches
the aggregation state — every inserted entry originates from a record with
non-empty text and a present sender. -/
theorem C10_guard_state_unchanged :
    ∀ (cfg : Config) (st : AggState) (msg : Msg),
      msg.text = [] ∨ msg.sender = none → stepMsg cfg st msg = st := by
  intro cfg st msg h
  cases hs : msg.sender with
  | none => simp [stepMsg, hs]
  | some s =>
    rcases h with h | h
    · simp [stepMsg, hs, h]
    · rw [hs] at h
      exact absurd h (by simp)

theorem C10_guard_state_unchanged_witness :
    matchesB cfg0.caseSensitive cfg0.keywords cfg0.excludeKeywords "hello".data = true ∧
    stepMsg cfg0 initState
      { text := "hello".data, sender := none, date := 0, id := 0 } = initState :=
  ⟨by decide, C10_guard_state_unchanged cfg0 initState _ (Or.inr rfl)⟩

/-! The match decision -/

/-- Claim C1: a record matches exactly when some include term, in its
normalized and case-folded compared form, is a substring of the searched
text and either the exclude list is empty or no exclude term occurs in the
searched text; the specification's exclude-precedence example is included,
and a non-matching record leaves the aggregation state unchanged, so a
result row is only ever created for a matching record. -/
theorem C1_match_semantics :
    (∀ (cs : Bool) (kws exs : List (List Char)) (t : List Char),
      matchesB cs kws exs t = true ↔
        ((∃ k ∈ kws, checkForm cs k <:+: searchTextOf cs t) ∧
         (exs = [] ∨ ∀ e ∈ exs, ¬ (checkForm cs e <:+: searchTextOf cs t)))) ∧
    matchesB false ["hello".data] ["erotic".data] "hello erotic".data = false ∧
    (∀ (cfg : Config) (st : AggState) (msg : Msg),
      matchesB cfg.caseSensitive cfg.keywords cfg.excludeKeywords msg.text = false →
      stepMsg cfg st msg = st) := by
  refine ⟨fun cs kws exs t => ?_, by decide, fun cfg st msg h => ?_⟩
  · simp only [matchesB, kwsToCheck_eq, exsToCheck_eq]
    by_cases hx : exs = []
    · subst hx
      simp [List.any_eq_true, hasSub_iff]
    · have hmapne : exs.map (checkForm cs) ≠ [] := by
        simpa using hx
      rw [if_neg hmapne]
      simp only [Bool.and_eq_true, Bool.not_eq_true', List.any_eq_false,
        List.any_eq_true, List.mem_map, hx, false_or]
      constructor
      · rintro ⟨⟨k, ⟨k0, hk0, hfk⟩, hs⟩, hexc⟩
        refine ⟨⟨k0, hk0, (hasSub_iff _ _).mp (by rw [hfk]; exact hs)⟩, ?_⟩
        intro e he hcon
        exact absurd ((hasSub_iff _ _).mpr hcon)
          (by simp [hexc (checkForm cs e) ⟨e, he, rfl⟩])
      · rintro ⟨⟨k, hk, hs⟩, hexc⟩
        refine ⟨⟨checkForm cs k, ⟨k, hk, rfl⟩, (hasSub_iff _ _).mpr hs⟩, ?_⟩
        rintro w ⟨e, he, rfl⟩
        have := hexc e he
        rw [← hasSub_iff] at this
        simpa using this
  · cases hs : msg.sender with
    | none => simp [stepMsg, hs]
    | some s =>
      by_cases ht : msg.text = []
      · simp [stepMsg, hs, ht]
      · simp [stepMsg, hs, ht, h]

theorem C1_match_semantics_witness :
    stepMsg cfg0 initState
      { text := "bye".data, sender := some { id := 9, username := none },
        date := 0, id := 0 } = initState :=
  C1_match_semantics.2.2 cfg0 initState _ (by decide)

/-! Keyword-input parsing -/

theorem dropWhile_head_false (p : Char → Bool) :
    ∀ (l : List Char) (c : Char) (t : List Char),
      l.dropWhile p = c :: t → p c = false := by
  intro l
  induction l with
  | nil => intro c t h; simp [List.dropWhile] at h
  | cons a as ih =>
    intro c t h
    by_cases ha : p a
    · rw [List.dropWhile_cons_of_pos ha] at h
      exact ih c t h
    · have haf : p a = false := Bool.eq_false_iff.mpr ha
      rw [List.dropWhile_cons_of_neg ha] at h
      obtain ⟨h1, _⟩ := List.cons.injEq a as c t ▸ h
      rw [← h1]
      exact haf

theorem pyStrip_has_nonws {w : List Char} (h : pyStrip w ≠ []) :
    ∃ c ∈ pyStrip w, isPySpace c = false := by
  unfold pyStrip at h ⊢
  cases hb : (w.dropWhile isPySpace).reverse.dropWhile isPySpace with
  | nil => rw [hb] at h; simp at h
  | cons d B' =>
    have hd : isPySpace d = false := dropWhile_head_false isPySpace _ d B' hb
    refine ⟨d, ?_, hd⟩
    simp

theorem parseTerms_spec (s : List Char) :
    ∀ k ∈ parseTerms s, k ≠ [] ∧ ∃ c ∈ k, isPySpace c = false := by
  intro k hk
  unfold parseTerms at hk
  rw [List.mem_filter] at hk
  obtain ⟨hk1, hk2⟩ := hk
  have hkne : k ≠ [] := by simpa using hk2
  obtain ⟨w, _, hw⟩ := List.mem_map.mp hk1
  refine ⟨hkne, ?_⟩
  rw [← hw]
  exact pyStrip_has_nonws (by rw [hw]; exact hkne)

/-- Claim C9 is false for the handlers of src/app_hybrid.py and
src/live_scrap.py: splitting the input `a,,b` on commas and stripping each
item hands the matcher a list containing a blank entry. -/
theorem C9_counterexample_blank_term :
    ([] : List Char) ∈ parseTermsHybrid ('a' :: ',' :: ',' :: ['b']) := by decide

/-- Claim C9, amended: the handler of src/app.py strips every raw item and
drops blank results, so its include and exclude lists contain no blank or
whitespace-only entries; the handlers of src/app_hybrid.py and
src/live_scrap.py strip items but keep blank results. -/
theorem C9_amended_blank_filtering :
    ∀ s : List Char,
      (∀ k ∈ parseTerms s, k ≠ [] ∧ ∃ c ∈ k, isPySpace c = false) ∧
      (∀ k ∈ parseExcludes s, k ≠ [] ∧ ∃ c ∈ k, isPySpace c = false) ∧
      (∀ k ∈ parseTermsHybrid s, ∃ w, k = pyStrip w) := by
  intro s
  refine ⟨parseTerms_spec s, ?_, ?_⟩
  · intro k hk
    unfold parseExcludes at hk
    by_cases hs : s = []
    · rw [if_pos hs] at hk
      simp at hk
    · rw [if_neg hs] at hk
      exact parseTerms_spec s k hk
  · intro k hk
    obtain ⟨w, _, hw⟩ := List.mem_map.mp hk
    exact ⟨w, hw.symm⟩

/-! Aggregation: dictionary lemmas, counts and row multiplicity -/

theorem lookupA_upsert_self {α : Type} (k : Int) (f : Option α → α) :
    ∀ l : List (Int × α), lookupA k (upsert k f l) = some (f (lookupA k l)) := by
  intro l
  induction l with
  | nil => simp [upsert, lookupA]
  | cons p rest ih =>
    obtain ⟨k', v⟩ := p
    by_cases hk : k' = k
    · subst hk
      simp [upsert, lookupA, List.find?]
    · have hkb : (k' == k) = false := by simpa using hk
      simp only [upsert, hkb, Bool.false_eq_true, if_false]
      simp only [lookupA, List.find?, hkb]
      exact ih

theorem lookupA_upsert_ne {α : Type} {k k' : Int} (h : k' ≠ k) (f : Option α → α) :
    ∀ l : List (Int × α), lookupA k' (upsert k f l) = lookupA k' l := by
  intro l
  induction l with
  | nil =>
    have hb : (k == k') = false := by
      simp only [beq_eq_false_iff_ne, ne_eq]
      exact fun e => h e.symm
    simp [upsert, lookupA, List.find?, hb]
  | cons p rest ih =>
    obtain ⟨k₀, v⟩ := p
    by_cases hk : k₀ = k
    · subst hk
      have hb : (k₀ == k') = false := by
        simp only [beq_eq_false_iff_ne, ne_eq]
        exact fun e => h e.symm
      simp [upsert, lookupA, List.find?, hb]
    · have hkb : (k₀ == k) = false := by simpa using hk
      by_cases hk' : k₀ = k'
      · subst hk'
        simp [upsert, lookupA, List.find?, hkb]
      · have hkb' : (k₀ == k') = false := by simpa using hk'
        simp only [upsert, hkb, Bool.false_eq_true, if_false, lookupA, List.find?, hkb']
        exact ih

theorem accepts_iff (cfg : Config) (m : Msg) :
    accepts cfg m = true ↔
      ∃ s, m.sender = some s ∧ m.text ≠ [] ∧
        matchesB cfg.caseSensitive cfg.keywords cfg.excludeKeywords m.text = true := by
  unfold accepts
  cases hs : m.sender with
  | none => simp
  | some s => simp [hs]

theorem stepMsg_not_accepted (cfg : Config) (st : AggState) (m : Msg)
    (h : accepts cfg m = false) : stepMsg cfg st m = st := by
  unfold stepMsg
  cases hs : m.sender with
  | none => rfl
  | some s =>
    by_cases ht : m.text = []
    · simp [ht]
    · have hm : matchesB cfg.caseSensitive cfg.keywords cfg.excludeKeywords m.text = false := by
        unfold accepts at h
        rw [hs] at h
        simpa [ht] using h
      simp [ht, hm]

theorem stepMsg_accepted (cfg : Config) (st : AggState) (m : Msg) (s : Sender)
    (hs : m.sender = some s) (ht : m.text ≠ [])
    (hm : matchesB cfg.caseSensitive cfg.keywords cfg.excludeKeywords m.text = true) :
    stepMsg cfg st m =
      { user_message_count := upsert s.id (fun o => o.getD 0 + 1) st.user_message_count,
        user_messages := upsert s.id (fun o => o.getD [] ++ [mkRow cfg m s]) st.user_messages,
        user_latest_message :=
          upsertLatest s.id (mkRow cfg m s) m.date st.user_latest_message } := by
  unfold stepMsg
  rw [hs]
  simp [ht, hm]

theorem acceptsFor_of_not_accepts {cfg : Config} {m : Msg}
    (h : accepts cfg m = false) (uid : Int) : acceptsFor cfg uid m = false := by
  unfold acceptsFor
  rw [h]
  rfl

theorem acceptsFor_accepted {cfg : Config} {m : Msg} {s : Sender}
    (hs : m.sender = some s) (ha : accepts cfg m = true) (uid : Int) :
    acceptsFor cfg uid m = (s.id == uid) := by
  unfold acceptsFor
  rw [ha, hs]
  simp

theorem countOf_step (cfg : Config) (st : AggState) (m : Msg) (uid : Int) :
    countOf (stepMsg cfg st m) uid =
      countOf st uid + (if acceptsFor cfg uid m = true then 1 else 0) := by
  by_cases ha : accepts cfg m = true
  · obtain ⟨s, hs, ht, hm⟩ := (accepts_iff cfg m).mp ha
    rw [stepMsg_accepted cfg st m s hs ht hm, acceptsFor_accepted hs ha]
    unfold countOf
    by_cases hu : s.id = uid
    · subst hu
      rw [lookupA_upsert_self]
      simp
    · have hb : (s.id == uid) = false := by simpa using hu
      rw [lookupA_upsert_ne (fun e => hu e.symm)]
      simp [hb]
  · have ha' : accepts cfg m = false := Bool.eq_false_iff.mpr ha
    rw [stepMsg_not_accepted cfg st m ha']
    simp [acceptsFor_of_not_accepts ha' uid]

theorem count_fold (cfg : Config) :
    ∀ (msgs : List Msg) (st : AggState) (uid : Int),
      countOf (List.foldl (stepMsg cfg) st msgs) uid =
        countOf st uid + (msgs.filter (fun m => acceptsFor cfg uid m)).length := by
  intro msgs
  induction msgs with
  | nil => intro st uid; simp
  | cons m rest ih =>
    intro st uid
    rw [List.foldl_cons, ih, countOf_step]
    by_cases ha : acceptsFor cfg uid m = true <;>
      simp [List.filter_cons, ha] <;> omega

theorem count_correct (cfg : Config) (msgs : List Msg) (uid : Int) :
    countOf (runScrape cfg msgs) uid =
      (msgs.filter (fun m => acceptsFor cfg uid m)).length := by
  unfold runScrape
  rw [count_fold]
  simp [countOf, initState, lookupA, List.find?]

theorem concatL_length {α : Type} :
    ∀ ls : List (List α), (concatL ls).length = (ls.map List.length).sum := by
  intro ls
  induction ls with
  | nil => rfl
  | cons l ls ih => simp [concatL, ih]

theorem patchRows_length (st : AggState) :
    (patchRows st).length = (st.user_messages.map (fun p => p.2.length)).sum := by
  unfold patchRows
  rw [concatL_length, List.map_map]
  congr 1
  apply List.map_congr_left
  intro p _
  simp

theorem upsert_append_sum (uid : Int) (row : Row) :
    ∀ l : List (Int × List Row),
      ((upsert uid (fun o => o.getD [] ++ [row]) l).map (fun p => p.2.length)).sum =
        (l.map (fun p => p.2.length)).sum + 1 := by
  intro l
  induction l with
  | nil => simp [upsert]
  | cons p rest ih =>
    obtain ⟨k, v⟩ := p
    by_cases hk : k = uid
    · have hb : (k == uid) = true := by simpa using hk
      simp only [upsert, hb, if_true, Option.getD_some, List.map_cons, List.sum_cons,
        List.length_append, List.length_cons, List.length_nil]
      omega
    · have hb : (k == uid) = false := by simpa using hk
      simp only [upsert, hb, Bool.false_eq_true, if_false, List.map_cons, List.sum_cons, ih]
      omega

theorem rowsLen_step (cfg : Config) (st : AggState) (m : Msg) :
    ((stepMsg cfg st m).user_messages.map (fun p => p.2.length)).sum =
      (st.user_messages.map (fun p => p.2.length)).sum +
        (if accepts cfg m = true then 1 else 0) := by
  by_cases ha : accepts cfg m = true
  · obtain ⟨s, hs, ht, hm⟩ := (accepts_iff cfg m).mp ha
    rw [stepMsg_accepted cfg st m s hs ht hm]
    simp [upsert_append_sum, ha]
  · have ha' : accepts cfg m = false := Bool.eq_false_iff.mpr ha
    rw [stepMsg_not_accepted cfg st m ha']
    simp [ha']

theorem rows_fold (cfg : Config) :
    ∀ (msgs : List Msg) (st : AggState),
      ((List.foldl (stepMsg cfg) st msgs).user_messages.map (fun p => p.2.length)).sum =
        (st.user_messages.map (fun p => p.2.length)).sum +
          (msgs.filter (accepts cfg)).length := by
  intro msgs
  induction msgs with
  | nil => intro st; simp
  | cons m rest ih =>
    intro st
    rw [List.foldl_cons, ih, rowsLen_step]
    by_cases ha : accepts cfg m = true <;>
      simp [List.filter_cons, ha] <;> omega

theorem finalDup_length (cfg : Config) (msgs : List Msg) :
    (finalDup (runScrape cfg msgs)).length = (msgs.filter (accepts cfg)).length := by
  unfold finalDup
  rw [List.length_map, patchRows_length]
  unfold runScrape
  rw [rows_fold]
  simp [initState]

theorem mem_concatL {α : Type} {x : α} :
    ∀ {ls : List (List α)} {l : List α}, l ∈ ls → x ∈ l → x ∈ concatL ls := by
  intro ls
  induction ls with
  | nil => intro l h; simp at h
  | cons a as ih =>
    intro l hl hx
    show x ∈ a ++ concatL as
    rcases List.mem_cons.mp hl with h | h
    · rw [h] at hx
      exact List.mem_append_left _ hx
    · exact List.mem_append_right _ (ih h hx)

theorem mem_patchRows {st : AggState} {p : Int × List Row} {r : Row}
    (hp : p ∈ st.user_messages) (hr : r ∈ p.2) :
    ({ r with total := countOf st p.1 } : Row) ∈ patchRows st := by
  unfold patchRows
  exact mem_concatL (List.mem_map_of_mem _ hp) (List.mem_map_of_mem _ hr)

/-- Claim C2: with duplicates allowed, every matching record becomes exactly
one output row, and after the whole stream is consumed every stored row is
patched with its author's final total match count; over the 3+1 stream the
output has 4 rows and the patched totals are 3, 3, 3 and 1. -/
theorem C2_duplicates_policy :
    (∀ (cfg : Config) (msgs : List Msg),
      (finalDup (runScrape cfg msgs)).length = (msgs.filter (accepts cfg)).length ∧
      ∀ p ∈ (runScrape cfg msgs).user_messages, ∀ r ∈ p.2,
        ({ r with total := (msgs.filter (fun m => acceptsFor cfg p.1 m)).length } : Row) ∈
          patchRows (runScrape cfg msgs)) ∧
    (finalDup (runScrape cfg0 msgs0)).length = 4 ∧
    (patchRows (runScrape cfg0 msgs0)).map (fun r => r.total) = [3, 3, 3, 1] := by
  refine ⟨fun cfg msgs => ⟨finalDup_length cfg msgs, fun p hp r hr => ?_⟩, by decide, by decide⟩
  rw [← count_correct cfg msgs p.1]
  exact mem_patchRows hp hr

theorem C2_duplicates_policy_witness :
    ({ (((runScrape cfg0 msgs0).user_messages.headD (0, [])).2.headD row0) with
       total := (msgs0.filter (fun m =>
         acceptsFor cfg0 ((runScrape cfg0 msgs0).user_messages.headD (0, [])).1 m)).length } : Row) ∈
      patchRows (runScrape cfg0 msgs0) :=
  (C2_duplicates_policy.1 cfg0 msgs0).2 _ (by decide) _ (by decide)

/-! Aggregation: the per-author latest record -/

theorem upsertLatest_keys (uid : Int) (row : Row) (d : Int) :
    ∀ l : List (Int × (Row × Int)),
      (upsertLatest uid row d l).map Prod.fst =
        if uid ∈ l.map Prod.fst then l.map Prod.fst else l.map Prod.fst ++ [uid] := by
  intro l
  induction l with
  | nil => simp [upsertLatest]
  | cons p rest ih =>
    obtain ⟨k, v⟩ := p
    by_cases hk : k = uid
    · have hb : (k == uid) = true := by simpa using hk
      by_cases hd : d > v.2
      · simp [upsertLatest, hb, hd, hk]
      · simp [upsertLatest, hb, hd, hk]
    · have hb : (k == uid) = false := by simpa using hk
      have hne : ¬ uid = k := fun e => hk e.symm
      simp only [upsertLatest, hb, Bool.false_eq_true, if_false, List.map_cons, ih]
      by_cases hm : uid ∈ rest.map Prod.fst
      · simp [hm, hne]
      · simp [hm, hne]

theorem mem_upsertLatest_keys {uid uid' : Int} {row : Row} {d : Int}
    {l : List (Int × (Row × Int))} :
    uid' ∈ (upsertLatest uid row d l).map Prod.fst ↔
      uid' ∈ l.map Prod.fst ∨ uid' = uid := by
  rw [upsertLatest_keys]
  by_cases hm : uid ∈ l.map Prod.fst
  · rw [if_pos hm]
    constructor
    · exact Or.inl
    · rintro (h | h)
      · exact h
      · rw [h]; exact hm
  · rw [if_neg hm]
    simp

theorem nodup_upsertLatest_keys {uid : Int} {row : Row} {d : Int}
    {l : List (Int × (Row × Int))} (h : (l.map Prod.fst).Nodup) :
    ((upsertLatest uid row d l).map Prod.fst).Nodup := by
  rw [upsertLatest_keys]
  by_cases hm : uid ∈ l.map Prod.fst
  · rw [if_pos hm]; exact h
  · rw [if_neg hm]
    simp [List.nodup_append, h, hm]

theorem mem_upsertLatest {uid : Int} {row : Row} {d : Int} :
    ∀ l : List (Int × (Row × Int)), (l.map Prod.fst).Nodup →
      ∀ p ∈ upsertLatest uid row d l,
        (p ∈ l ∧ (p.1 = uid → ¬ d > p.2.2)) ∨
        (p = (uid, (row, d)) ∧
          (uid ∉ l.map Prod.fst ∨ ∃ q ∈ l, q.1 = uid ∧ d > q.2.2)) := by
  intro l
  induction l with
  | nil =>
    intro _ p hp
    simp only [upsertLatest, List.mem_singleton] at hp
    exact Or.inr ⟨hp, Or.inl (by simp)⟩
  | cons a rest ih =>
    intro hnd p hp
    obtain ⟨k, v⟩ := a
    have hnd2 : (k :: rest.map Prod.fst).Nodup := by
      rw [List.map_cons] at hnd
      exact hnd
    have hk_notin : k ∉ rest.map Prod.fst := (List.nodup_cons.mp hnd2).1
    have hnd' : (rest.map Prod.fst).Nodup := (List.nodup_cons.mp hnd2).2
    by_cases hku : k = uid
    · have hb : (k == uid) = true := by simpa using hku
      by_cases hd : d > v.2
      · rw [upsertLatest, hb] at hp
        simp only [if_true, hd] at hp
        rcases List.mem_cons.mp hp with h | h
        · refine Or.inr ⟨by rw [h, hku], Or.inr ⟨(k, v), List.mem_cons_self _ _, hku, hd⟩⟩
        · refine Or.inl ⟨List.mem_cons_of_mem _ h, fun hpu => ?_⟩
          exfalso
          apply hk_notin
          rw [hku, ← hpu]
          exact List.mem_map_of_mem Prod.fst h
      · rw [upsertLatest, hb] at hp
        simp only [if_true, hd, if_false] at hp
        rcases List.mem_cons.mp hp with h | h
        · refine Or.inl ⟨by rw [h]; exact List.mem_cons_self _ _, fun hpu => by rw [h]; exact hd⟩
        · refine Or.inl ⟨List.mem_cons_of_mem _ h, fun hpu => ?_⟩
          exfalso
          apply hk_notin
          rw [hku, ← hpu]
          exact List.mem_map_of_mem Prod.fst h
    · have hb : (k == uid) = false := by simpa using hku
      rw [upsertLatest, hb] at hp
      simp only [Bool.false_eq_true, if_false] at hp
      rcases List.mem_cons.mp hp with h | h
      · refine Or.inl ⟨by rw [h]; exact List.mem_cons_self _ _, fun hpu => ?_⟩
        exfalso
        rw [h] at hpu
        exact hku hpu
      · rcases ih hnd' p h with ⟨h1, h2⟩ | ⟨h1, h2⟩
        · exact Or.inl ⟨List.mem_cons_of_mem _ h1, h2⟩
        · refine Or.inr ⟨h1, ?_⟩
          rcases h2 with h2 | ⟨q, hq, hq1, hq2⟩
          · refine Or.inl ?_
            simp only [List.map_cons, List.mem_cons]
            rintro (he | he)
            · exact hku he.symm
            · exact h2 he
          · exact Or.inr ⟨q, List.mem_cons_of_mem _ hq, hq1, hq2⟩

theorem ulm_step (cfg : Config) (seen : List Msg) (st : AggState) (m : Msg)
    (h1 : ∀ uid, uid ∈ st.user_latest_message.map Prod.fst ↔
        ∃ m' ∈ seen, acceptsFor cfg uid m' = true)
    (h2 : (st.user_latest_message.map Prod.fst).Nodup)
    (h3 : ∀ p ∈ st.user_latest_message,
      (∃ m' ∈ seen, acceptsFor cfg p.1 m' = true ∧ p.2.2 = m'.date ∧
        p.2.1 = mkRowOf cfg m') ∧
      ∀ m' ∈ seen, acceptsFor cfg p.1 m' = true → m'.date ≤ p.2.2) :
    (∀ uid, uid ∈ (stepMsg cfg st m).user_latest_message.map Prod.fst ↔
        ∃ m' ∈ seen ++ [m], acceptsFor cfg uid m' = true) ∧
    ((stepMsg cfg st m).user_latest_message.map Prod.fst).Nodup ∧
    (∀ p ∈ (stepMsg cfg st m).user_latest_message,
      (∃ m' ∈ seen ++ [m], acceptsFor cfg p.1 m' = true ∧ p.2.2 = m'.date ∧
        p.2.1 = mkRowOf cfg m') ∧
      ∀ m' ∈ seen ++ [m], acceptsFor cfg p.1 m' = true → m'.date ≤ p.2.2) := by
  by_cases ha : accepts cfg m = true
  · obtain ⟨s, hs, ht, hm⟩ := (accepts_iff cfg m).mp ha
    rw [stepMsg_accepted cfg st m s hs ht hm]
    refine ⟨?_, ?_, ?_⟩
    · intro uid
      show uid ∈ (upsertLatest s.id (mkRow cfg m s) m.date
          st.user_latest_message).map Prod.fst ↔ _
      rw [mem_upsertLatest_keys]
      constructor
      · rintro (h | h)
        · obtain ⟨m', hm', hacc⟩ := (h1 uid).mp h
          exact ⟨m', List.mem_append_left _ hm', hacc⟩
        · refine ⟨m, List.mem_append_right _ (List.mem_singleton.mpr rfl), ?_⟩
          rw [acceptsFor_accepted hs ha uid]
          simp [h]
      · rintro ⟨m', hm', hacc⟩
        rcases List.mem_append.mp hm' with hh | hh
        · exact Or.inl ((h1 uid).mpr ⟨m', hh, hacc⟩)
        · rw [List.mem_singleton] at hh
          subst hh
          rw [acceptsFor_accepted hs ha uid] at hacc
          have hsu : s.id = uid := by simpa using hacc
          exact Or.inr hsu.symm
    · show ((upsertLatest s.id (mkRow cfg m s) m.date
          st.user_latest_message).map Prod.fst).Nodup
      exact nodup_upsertLatest_keys h2
    · intro p hp
      have hp' : p ∈ upsertLatest s.id (mkRow cfg m s) m.date st.user_latest_message := hp
      rcases mem_upsertLatest st.user_latest_message h2 p hp' with
        ⟨hmem, hcond⟩ | ⟨hpe, hdisj⟩
      · obtain ⟨⟨m', hm', hx⟩, hall⟩ := h3 p hmem
        refine ⟨⟨m', List.mem_append_left _ hm', hx⟩, ?_⟩
        intro m'' hm'' hacc
        rcases List.mem_append.mp hm'' with h | h
        · exact hall m'' h hacc
        · rw [List.mem_singleton] at h
          subst h
          rw [acceptsFor_accepted hs ha p.1] at hacc
          have hps : s.id = p.1 := by simpa using hacc
          have hle := hcond hps.symm
          omega
      · subst hpe
        refine ⟨⟨m, List.mem_append_right _ (List.mem_singleton.mpr rfl), ?_, rfl, ?_⟩, ?_⟩
        · rw [acceptsFor_accepted hs ha]
          simp
        · show mkRow cfg m s = mkRowOf cfg m
          simp [mkRowOf, hs]
        · intro m'' hm'' hacc
          rcases List.mem_append.mp hm'' with h | h
          · rcases hdisj with hnm | ⟨q, hq, hq1, hq2⟩
            · exfalso
              exact hnm ((h1 s.id).mpr ⟨m'', h, hacc⟩)
            · have hacc' : acceptsFor cfg q.1 m'' = true := by
                rw [hq1]
                exact hacc
              have hle := (h3 q hq).2 m'' h hacc'
              show m''.date ≤ m.date
              omega
          · rw [List.mem_singleton] at h
            rw [h]
  · have ha' : accepts cfg m = false := Bool.eq_false_iff.mpr ha
    rw [stepMsg_not_accepted cfg st m ha']
    refine ⟨?_, h2, ?_⟩
    · intro uid
      rw [h1 uid]
      constructor
      · rintro ⟨m', hm', hacc⟩
        exact ⟨m', List.mem_append_left _ hm', hacc⟩
      · rintro ⟨m', hm', hacc⟩
        rcases List.mem_append.mp hm' with h | h
        · exact ⟨m', h, hacc⟩
        · rw [List.mem_singleton] at h
          subst h
          rw [acceptsFor_of_not_accepts ha' uid] at hacc
          exact absurd hacc (by simp)
    · intro p hp
      obtain ⟨⟨m', hm', hx⟩, hall⟩ := h3 p hp
      refine ⟨⟨m', List.mem_append_left _ hm', hx⟩, ?_⟩
      intro m'' hm'' hacc
      rcases List.mem_append.mp hm'' with h | h
      · exact hall m'' h hacc
      · rw [List.mem_singleton] at h
        subst h
        rw [acceptsFor_of_not_accepts ha' p.1] at hacc
        exact absurd hacc (by simp)

theorem ulm_fold (cfg : Config) :
    ∀ (msgs seen : List Msg) (st : AggState),
      ((∀ uid, uid ∈ st.user_latest_message.map Prod.fst ↔
          ∃ m' ∈ seen, acceptsFor cfg uid m' = true) ∧
       (st.user_latest_message.map Prod.fst).Nodup ∧
       (∀ p ∈ st.user_latest_message,
         (∃ m' ∈ seen, acceptsFor cfg p.1 m' = true ∧ p.2.2 = m'.date ∧
           p.2.1 = mkRowOf cfg m') ∧
         ∀ m' ∈ seen, acceptsFor cfg p.1 m' = true → m'.date ≤ p.2.2)) →
      ((∀ uid, uid ∈ (List.foldl (stepMsg cfg) st msgs).user_latest_message.map Prod.fst ↔
          ∃ m' ∈ seen ++ msgs, acceptsFor cfg uid m' = true) ∧
       ((List.foldl (stepMsg cfg) st msgs).user_latest_message.map Prod.fst).Nodup ∧
       (∀ p ∈ (List.foldl (stepMsg cfg) st msgs).user_latest_message,
         (∃ m' ∈ seen ++ msgs, acceptsFor cfg p.1 m' = true ∧ p.2.2 = m'.date ∧
           p.2.1 = mkRowOf cfg m') ∧
         ∀ m' ∈ seen ++ msgs, acceptsFor cfg p.1 m' = true → m'.date ≤ p.2.2)) := by
  intro msgs
  induction msgs with
  | nil =>
    intro seen st h
    simpa using h
  | cons m rest ih =>
    intro seen st h
    obtain ⟨h1, h2, h3⟩ := h
    have hstep := ulm_step cfg seen st m h1 h2 h3
    have hrec := ih (seen ++ [m]) (stepMsg cfg st m) hstep
    rw [List.foldl_cons]
    have happ : (seen ++ [m]) ++ rest = seen ++ m :: rest := by simp
    rw [happ] at hrec
    exact hrec

theorem ulm_invariant (cfg : Config) (msgs : List Msg) :
    (∀ uid, uid ∈ (runScrape cfg msgs).user_latest_message.map Prod.fst ↔
        ∃ m' ∈ msgs, acceptsFor cfg uid m' = true) ∧
    ((runScrape cfg msgs).user_latest_message.map Prod.fst).Nodup ∧
    (∀ p ∈ (runScrape cfg msgs).user_latest_message,
      (∃ m' ∈ msgs, acceptsFor cfg p.1 m' = true ∧ p.2.2 = m'.date ∧
        p.2.1 = mkRowOf cfg m') ∧
      ∀ m' ∈ msgs, acceptsFor cfg p.1 m' = true → m'.date ≤ p.2.2) := by
  have h := ulm_fold cfg msgs [] initState
    ⟨by simp [initState], by simp [initState], by simp [initState]⟩
  simpa using h

theorem finalNoDup_length (cfg : Config) (msgs : List Msg) :
    (finalNoDup (runScrape cfg msgs)).length =
      ((msgs.filter (accepts cfg)).map uidOf).toFinset.card := by
  obtain ⟨h1, h2, _⟩ := ulm_invariant cfg msgs
  unfold finalNoDup
  rw [List.length_map]
  have hkeys : (runScrape cfg msgs).user_latest_message.length =
      ((runScrape cfg msgs).user_latest_message.map Prod.fst).length := by simp
  rw [hkeys, ← List.toFinset_card_of_nodup h2]
  congr 1
  apply Finset.ext
  intro uid
  rw [List.mem_toFinset, List.mem_toFinset, h1 uid]
  constructor
  · rintro ⟨m', hm', hacc⟩
    have haccepts : accepts cfg m' = true := by
      unfold acceptsFor at hacc
      simp only [Bool.and_eq_true] at hacc
      exact hacc.1
    obtain ⟨s, hs, _, _⟩ := (accepts_iff cfg m').mp haccepts
    have huid : uidOf m' = uid := by
      rw [acceptsFor_accepted hs haccepts uid] at hacc
      unfold uidOf
      rw [hs]
      simpa using hacc
    exact List.mem_map.mpr ⟨m', List.mem_filter.mpr ⟨hm', haccepts⟩, huid⟩
  · intro h
    obtain ⟨m', hm', huid⟩ := List.mem_map.mp h
    obtain ⟨hmem, hacc⟩ := List.mem_filter.mp hm'
    obtain ⟨s, hs, _, _⟩ := (accepts_iff cfg m').mp hacc
    refine ⟨m', hmem, ?_⟩
    rw [acceptsFor_accepted hs hacc]
    unfold uidOf at huid
    rw [hs] at huid
    simpa using huid

/-- Claim C3: with duplicates disallowed, the output has exactly one row per
author with at least one match; the kept entry per author stores the row of
a matching record of that author whose timestamp is maximal among the
author's matches, and the output row is annotated with the author's total
match count; the 3+1 stream yields 2 rows with totals 3 and 1, the kept row
of the first author being the temporally latest one. -/
theorem C3_latest_per_author :
    (∀ (cfg : Config) (msgs : List Msg),
      (finalNoDup (runScrape cfg msgs)).length =
        ((msgs.filter (accepts cfg)).map uidOf).toFinset.card ∧
      (∀ uid, uid ∈ (runScrape cfg msgs).user_latest_message.map Prod.fst ↔
        ∃ m ∈ msgs, acceptsFor cfg uid m = true) ∧
      (∀ p ∈ (runScrape cfg msgs).user_latest_message,
        (∃ m ∈ msgs, acceptsFor cfg p.1 m = true ∧ p.2.2 = m.date ∧
          p.2.1 = mkRowOf cfg m) ∧
        (∀ m ∈ msgs, acceptsFor cfg p.1 m = true → m.date ≤ p.2.2) ∧
        ({ p.2.1 with
           total := (msgs.filter (fun m => acceptsFor cfg p.1 m)).length } : Row) ∈
          finalNoDup (runScrape cfg msgs))) ∧
    (finalNoDup (runScrape cfg0 msgs0)).map (fun r => r.total) = [3, 1] ∧
    (finalNoDup (runScrape cfg0 msgs0)).map (fun r => r.msgDate) =
      [formatDate 30, formatDate 5] := by
  refine ⟨fun cfg msgs => ?_, by decide, by decide⟩
  obtain ⟨h1, h2, h3⟩ := ulm_invariant cfg msgs
  refine ⟨finalNoDup_length cfg msgs, h1, fun p hp => ?_⟩
  obtain ⟨hex, hall⟩ := h3 p hp
  refine ⟨hex, hall, ?_⟩
  rw [← count_correct cfg msgs p.1]
  unfold finalNoDup
  exact List.mem_map_of_mem _ hp

theorem C3_latest_per_author_witness :
    ({ ((runScrape cfg0 msgs0).user_latest_message.headD (0, (row0, 0))).2.1 with
       total := (msgs0.filter (fun m =>
         acceptsFor cfg0
           ((runScrape cfg0 msgs0).user_latest_message.headD (0, (row0, 0))).1 m)).length } : Row) ∈
      finalNoDup (runScrape cfg0 msgs0) :=
  (((C3_latest_per_author.1 cfg0 msgs0).2.2 _ (by decide)).2.2)

/-- Claim C8: the aggregator tolerates an empty stream — it produces an
empty result set under both duplicate policies — and a stream cut off after
any number of records still produces a valid aggregated result over exactly
the records seen: the row count equals the number of accepted records of the
consumed prefix, and the per-author output covers exactly the authors seen
in the prefix. -/
theorem C8_stream_tolerance :
    ∀ cfg : Config,
      finalDup (runScrape cfg []) = [] ∧
      finalNoDup (runScrape cfg []) = [] ∧
      ∀ (msgs : List Msg) (k : Nat),
        (finalDup (runScrape cfg (msgs.take k))).length =
          ((msgs.take k).filter (accepts cfg)).length ∧
        (finalNoDup (runScrape cfg (msgs.take k))).length =
          (((msgs.take k).filter (accepts cfg)).map uidOf).toFinset.card := by
  intro cfg
  exact ⟨rfl, rfl, fun msgs k =>
    ⟨finalDup_length cfg (msgs.take k), finalNoDup_length cfg (msgs.take k)⟩⟩

theorem C9_amended_blank_filtering_witness :
    (('a' :: []) ≠ [] ∧ ∃ c ∈ ('a' :: []), isPySpace c = false) ∧
    (('e' :: []) ≠ [] ∧ ∃ c ∈ ('e' :: []), isPySpace c = false) :=
  ⟨(C9_amended_blank_filtering ('a' :: ',' :: ' ' :: ['b'])).1 ('a' :: []) (by decide),
   (C9_amended_blank_filtering (' ' :: ['e'])).2.1 ('e' :: []) (by decide)⟩
